import Mathlib

/-!
Verification of the core binary decoder of the e57parser repository
(header decoding, CRC-protected paging, compressed-vector packet and
bit-stream reading).

The C++ sources are shallowly embedded: machine integers become `Nat`
with explicit `% 2 ^ w` where overflow can matter, byte buffers become
total functions `Nat → Nat` read through `byteAt` (which masks to eight
bits, as the `uint8_t` element type does in the source), fallible
operations return `Except Err`, and loops whose termination the C++
achieves through data invariants are driven by an explicit bound, with
`Option.none` denoting a run that would not have finished within that
bound (this case is unreachable for the bounds used, mirroring the
always-terminating source loops).

Source files referenced below:
* e57File.cpp — `parseHeader`, `checkPage`, `readE57Bytes`, `openE57`;
* the compressed-vector reader — `getPacket`, `consumeBits`,
  `readPointsIteration`, `readPoints`, `calculateSectionLogicalEnd`,
  `calculateSectionPhysicalEnd`;
* e57File.h / Common.h — `Component`, `getUint16LE`, LE readers.
-/

namespace E57

/-- Error kinds of the decoder, following the specification error list
(ShortFile, BadSignature, BadPageSize, CrcMismatch, OutsidePayload,
IoFailure, UnexpectedPacketKind, EmptyData, BadPacketAlignment,
StreamOverflow, StreamMissing, PrematureEndOfSection, BadSectionId).
Two extra kinds appear only as translations of untitled failure logs in
the source: `packetTooSmall` for the packet-size-below-4 log in
`getPacket`, and `packetFetchFailed` for `readPointsIteration` aborting
after `getPacket` signalled failure by returning offset 0. -/
inductive Err where
  | shortFile
  | badSignature
  | badPageSize
  | badSectionId
  | crcMismatch
  | outsidePayload
  | ioFailure
  | unexpectedPacketKind
  | emptyData
  | badPacketAlignment
  | streamOverflow
  | streamMissing
  | prematureEndOfSection
  | packetTooSmall
  | packetFetchFailed
  | xmlParseFailed
  deriving Repr, DecidableEq

/-- Read one byte of a buffer or file modelled as a total function.
The mask to eight bits reflects the `uint8_t` element type of every
buffer the source reads through. -/
def byteAt (f : Nat → Nat) (i : Nat) : Nat := f i % 256

/-- getUint16LE from Common.h: `uint16_t(size_t(q[1]) << 8 | size_t(q[0]))`. -/
def getUint16LE (f : Nat → Nat) (o : Nat) : Nat :=
  (byteAt f (o + 1)) <<< 8 ||| byteAt f o

/-- readUint32LE from e57File.cpp:
`q[3] << 24 | q[2] << 16 | q[1] << 8 | q[0]`. -/
def getUint32LE (f : Nat → Nat) (o : Nat) : Nat :=
  (byteAt f (o + 3)) <<< 24 ||| (byteAt f (o + 2)) <<< 16 |||
  (byteAt f (o + 1)) <<< 8 ||| byteAt f o

/-- readUint64LE from e57File.cpp (eight little-endian bytes). -/
def getUint64LE (f : Nat → Nat) (o : Nat) : Nat :=
  (byteAt f (o + 7)) <<< 56 ||| (byteAt f (o + 6)) <<< 48 |||
  (byteAt f (o + 5)) <<< 40 ||| (byteAt f (o + 4)) <<< 32 |||
  (byteAt f (o + 3)) <<< 24 ||| (byteAt f (o + 2)) <<< 16 |||
  (byteAt f (o + 1)) <<< 8 ||| byteAt f o

theorem byteAt_lt (f : Nat → Nat) (i : Nat) : byteAt f i < 256 :=
  Nat.mod_lt _ (by norm_num)

theorem lor_shift_add {a b k : Nat} (hb : b < 2 ^ k) :
    a <<< k ||| b = a * 2 ^ k + b := by
  rw [Nat.shiftLeft_eq, Nat.mul_comm a (2 ^ k), ← Nat.mul_add_lt_is_or hb]

/-- Little-endian 16-bit reads are the usual place-value sum. -/
theorem getUint16LE_eq (f : Nat → Nat) (o : Nat) :
    getUint16LE f o = byteAt f (o + 1) * 256 + byteAt f o := by
  have := lor_shift_add (a := byteAt f (o + 1)) (k := 8) (byteAt_lt f o)
  simpa [getUint16LE] using this

theorem getUint16LE_lt (f : Nat → Nat) (o : Nat) : getUint16LE f o < 65536 := by
  rw [getUint16LE_eq]
  have h1 := byteAt_lt f (o + 1)
  have h0 := byteAt_lt f o
  omega

/-! CRC-32C.  `checkPage` in e57File.cpp computes the lookup table from
the reflected polynomial `0x82f63b78`, then folds the table-driven
update over the page payload, with initial value `0xFFFFFFFF` and final
XOR `0xFFFFFFFF`. -/

/-- One iteration of the table generator inner loop of `checkPage`:
`c = (c & 1) ? polynomial ^ (c >> 1) : c >> 1`. -/
def crcStep (c : Nat) : Nat :=
  if c % 2 = 1 then 0x82f63b78 ^^^ (c >>> 1) else c >>> 1

/-- Entry `n` of the CRC table of `checkPage`: eight `crcStep`
iterations applied to `n`. -/
def crcTable (n : Nat) : Nat := crcStep^[8] n

/-- One byte of the CRC fold of `checkPage`:
`crc = (crc >> 8) ^ table[(crc ^ *ptr++) & 0xff]`. -/
def crcUpdate (crc b : Nat) : Nat :=
  (crc >>> 8) ^^^ crcTable ((crc ^^^ b) &&& 0xFF)

/-- CRC of a byte list as `checkPage` computes it: init `0xFFFFFFFF`,
table-driven byte folds, final XOR `0xFFFFFFFF`. -/
def crc32c (bs : List Nat) : Nat :=
  (bs.foldl crcUpdate 0xFFFFFFFF) ^^^ 0xFFFFFFFF

/-- Modelled from the spec words only (for the refinement claim about
`checkPage`): CRC-32C described bit-at-a-time — reflected polynomial
`0x82F63B78`, initial value `0xFFFFFFFF`, each byte XORed into the low
bits followed by eight polynomial-reduction steps, final XOR
`0xFFFFFFFF`. -/
def crc32cReference (bs : List Nat) : Nat :=
  (bs.foldl (fun c b => crcStep^[8] (c ^^^ b)) 0xFFFFFFFF) ^^^ 0xFFFFFFFF

theorem shiftRight_xor (a b k : Nat) : (a ^^^ b) >>> k = a >>> k ^^^ b >>> k := by
  apply Nat.eq_of_testBit_eq
  intro i
  simp [Nat.testBit_shiftRight, Nat.testBit_xor]

theorem xor_mod_two (a b : Nat) : (a ^^^ b) % 2 = (a % 2 + b % 2) % 2 := by
  have h0 : (a ^^^ b).testBit 0 = (a.testBit 0 ^^ b.testBit 0) := Nat.testBit_xor a b 0
  simp only [Nat.testBit_zero] at h0
  rcases Nat.mod_two_eq_zero_or_one a with ha | ha <;>
    rcases Nat.mod_two_eq_zero_or_one b with hb | hb <;>
    rcases Nat.mod_two_eq_zero_or_one (a ^^^ b) with hx | hx <;>
    simp [ha, hb, hx] at h0 ⊢

theorem xor_left_comm (a b c : Nat) : a ^^^ (b ^^^ c) = b ^^^ (a ^^^ c) := by
  rw [← Nat.xor_assoc, Nat.xor_comm a b, Nat.xor_assoc]

theorem xor_cancel_left (a b : Nat) : a ^^^ (a ^^^ b) = b := by
  rw [← Nat.xor_assoc, Nat.xor_self, Nat.zero_xor]

theorem crcStep_xor (a b : Nat) : crcStep (a ^^^ b) = crcStep a ^^^ crcStep b := by
  have hmod := xor_mod_two a b
  unfold crcStep
  rcases Nat.mod_two_eq_zero_or_one a with ha | ha <;>
    rcases Nat.mod_two_eq_zero_or_one b with hb | hb <;>
    rw [ha, hb] at hmod
  · have hx : (a ^^^ b) % 2 = 0 := hmod.trans rfl
    rw [if_neg (by omega), if_neg (by omega), if_neg (by omega), shiftRight_xor]
  · have hx : (a ^^^ b) % 2 = 1 := hmod.trans rfl
    rw [if_pos hx, if_neg (by omega), if_pos hb, shiftRight_xor,
      xor_left_comm (a >>> 1) 0x82f63b78 (b >>> 1)]
  · have hx : (a ^^^ b) % 2 = 1 := hmod.trans rfl
    rw [if_pos hx, if_pos ha, if_neg (by omega), shiftRight_xor, Nat.xor_assoc]
  · have hx : (a ^^^ b) % 2 = 0 := hmod.trans rfl
    rw [if_neg (by omega), if_pos ha, if_pos hb, shiftRight_xor,
      Nat.xor_assoc 0x82f63b78 (a >>> 1) (0x82f63b78 ^^^ b >>> 1),
      xor_left_comm (a >>> 1) 0x82f63b78 (b >>> 1), xor_cancel_left]

theorem crcStepIter_xor (n : Nat) (a b : Nat) :
    crcStep^[n] (a ^^^ b) = crcStep^[n] a ^^^ crcStep^[n] b := by
  induction n generalizing a b with
  | zero => simp
  | succ n ih =>
    rw [Function.iterate_succ_apply, Function.iterate_succ_apply,
      Function.iterate_succ_apply, crcStep_xor, ih]

theorem crcStep_two_pow_mul (k a : Nat) :
    crcStep (2 ^ (k + 1) * a) = 2 ^ k * a := by
  unfold crcStep
  have heven : (2 ^ (k + 1) * a) % 2 = 0 := by
    have : 2 ∣ 2 ^ (k + 1) * a := Dvd.dvd.mul_right (dvd_pow_self 2 (Nat.succ_ne_zero k)) a
    omega
  rw [if_neg (by omega)]
  rw [Nat.shiftRight_succ, Nat.shiftRight_zero, pow_succ]
  rw [Nat.mul_comm (2 ^ k) 2, Nat.mul_assoc]
  omega

theorem crcStepIter8_two_pow_mul (a : Nat) : crcStep^[8] (2 ^ 8 * a) = a := by
  have h : ∀ k a : Nat, crcStep^[k] (2 ^ k * a) = a := by
    intro k
    induction k with
    | zero => intro a; simp
    | succ k ih =>
      intro a
      rw [Function.iterate_succ_apply, crcStep_two_pow_mul, ih]
  exact h 8 a

theorem xor_low_high (x : Nat) : x = 2 ^ 8 * (x >>> 8) ^^^ (x &&& 0xFF) := by
  have hlow : x &&& 0xFF = x % 2 ^ 8 := Nat.and_pow_two_sub_one_eq_mod x 8
  have hhigh : x >>> 8 = x / 2 ^ 8 := Nat.shiftRight_eq_div_pow x 8
  rw [hlow, hhigh]
  have hxo : 2 ^ 8 * (x / 2 ^ 8) ^^^ x % 2 ^ 8 = 2 ^ 8 * (x / 2 ^ 8) ||| x % 2 ^ 8 := by
    apply Nat.eq_of_testBit_eq
    intro i
    rw [Nat.testBit_xor, Nat.testBit_lor]
    rcases Nat.lt_or_ge i 8 with hi | hi
    · have hm : (2 ^ 8 * (x / 2 ^ 8)).testBit i = false := by
        rw [Nat.testBit_mul_pow_two]
        simp [Nat.not_le.mpr hi]
      rw [hm]; cases ((x % 2 ^ 8).testBit i) <;> rfl
    · have hm : (x % 2 ^ 8).testBit i = false := by
        rw [Nat.testBit_mod_two_pow]
        simp [Nat.not_lt.mpr hi]
      rw [hm]; cases ((2 ^ 8 * (x / 2 ^ 8)).testBit i) <;> rfl
  rw [hxo, ← Nat.mul_add_lt_is_or (Nat.mod_lt _ (by norm_num)) (x / 2 ^ 8),
    Nat.div_add_mod]

/-- Eight `crcStep` iterations split into a plain shift of the high
bits and a table lookup of the low byte; this is the identity that
makes the table-driven loop of `checkPage` compute the bitwise CRC. -/
theorem crcStepIter8_split (x : Nat) :
    crcStep^[8] x = (x >>> 8) ^^^ crcTable (x &&& 0xFF) := by
  conv_lhs => rw [xor_low_high x]
  rw [crcStepIter_xor, crcStepIter8_two_pow_mul, crcTable]

theorem xor_byte_shiftRight8 {c b : Nat} (hb : b < 256) :
    (c ^^^ b) >>> 8 = c >>> 8 := by
  rw [shiftRight_xor]
  have : b >>> 8 = 0 := by
    rw [Nat.shiftRight_eq_div_pow]
    exact Nat.div_eq_of_lt (by omega)
  rw [this, Nat.xor_zero]

/-- The table-driven byte update of `checkPage` equals the eight-step
bitwise update on bytes. -/
theorem crcUpdate_eq_bitwise {b : Nat} (c : Nat) (hb : b < 256) :
    crcUpdate c b = crcStep^[8] (c ^^^ b) := by
  rw [crcUpdate, crcStepIter8_split (c ^^^ b), xor_byte_shiftRight8 hb]

/-- Table-driven CRC of `checkPage` agrees with the spec-described
bit-at-a-time CRC-32C on byte lists. -/
theorem crc32c_eq_reference {bs : List Nat} (hb : ∀ b ∈ bs, b < 256) :
    crc32c bs = crc32cReference bs := by
  unfold crc32c crc32cReference
  congr 1
  have h : ∀ (l : List Nat), (∀ b ∈ l, b < 256) → ∀ c : Nat,
      l.foldl crcUpdate c = l.foldl (fun c b => crcStep^[8] (c ^^^ b)) c := by
    intro l
    induction l with
    | nil => intro _ c; rfl
    | cons x xs ih =>
      intro hl c
      simp only [List.foldl_cons]
      rw [crcUpdate_eq_bitwise c (hl x (by simp))]
      exact ih (fun b hbm => hl b (by simp [hbm])) _
  exact h bs hb 0xFFFFFFFF

/-! Page geometry.  `parseHeader` derives from the accepted `pageSize`:
`page.size = pageSize`, `page.logicalSize = pageSize - 4`,
`page.mask = pageSize - 1`, `page.shift = countr_zero(pageSize)`. -/

/-- Page geometry fields of `E57File::Page`. -/
structure PageGeom where
  size : Nat
  logicalSize : Nat
  mask : Nat
  shift : Nat
  deriving Repr, DecidableEq

/-- Trailing-zero count of a value as `std::countr_zero` on `uint64_t`
computes it (64 for the value 0); the first argument is the remaining
bit budget, 64 at top level. -/
def countrZeroAux : Nat → Nat → Nat
  | 0, _ => 0
  | fuel + 1, n => if n % 2 = 0 then countrZeroAux fuel (n / 2) + 1 else 0

/-- countr_zero on a 64-bit value. -/
def countrZero64 (n : Nat) : Nat := countrZeroAux 64 n

theorem countrZeroAux_two_pow {k fuel : Nat} (h : k ≤ fuel) :
    countrZeroAux fuel (2 ^ k) = k := by
  induction k generalizing fuel with
  | zero =>
    cases fuel with
    | zero => rfl
    | succ fuel => simp [countrZeroAux]
  | succ k ih =>
    cases fuel with
    | zero => omega
    | succ fuel =>
      have heven : 2 ^ (k + 1) % 2 = 0 := by
        have : (2 : Nat) ∣ 2 ^ (k + 1) := dvd_pow_self 2 (Nat.succ_ne_zero k)
        omega
      have hdiv : 2 ^ (k + 1) / 2 = 2 ^ k := by
        rw [pow_succ]
        exact Nat.mul_div_cancel _ (by norm_num)
      simp only [countrZeroAux, heven, if_pos]
      rw [hdiv, ih (Nat.le_of_succ_le_succ h)]

theorem countrZero64_two_pow {k : Nat} (h : k ≤ 64) : countrZero64 (2 ^ k) = k :=
  countrZeroAux_two_pow h

/-- Page geometry as `parseHeader` computes it from an accepted
`pageSize`. -/
def pageGeomOf (pageSize : Nat) : PageGeom :=
  { size := pageSize
    logicalSize := pageSize - 4
    mask := pageSize - 1
    shift := countrZero64 pageSize }

/-- Shape of the geometry produced by `parseHeader` for a power-of-two
page size: this is the hypothesis set of the address-conversion
claims. -/
def PageGeom.FromHeader (g : PageGeom) : Prop :=
  g.size = 2 ^ g.shift ∧ g.logicalSize = g.size - 4 ∧ g.mask = g.size - 1

/-- calculateSectionLogicalEnd from the compressed-vector reader:
`(fileOffset >> shift) * logicalSize + (fileOffset & mask) +
sectionLogicalLength`. -/
def calculateSectionLogicalEnd (g : PageGeom) (fileOffset sectionLogicalLength : Nat) : Nat :=
  (fileOffset >>> g.shift) * g.logicalSize + (fileOffset &&& g.mask) + sectionLogicalLength

/-- calculateSectionPhysicalEnd from the compressed-vector reader:
maps the logical end back to physical with
`(L / logicalSize) * size + L % logicalSize`. -/
def calculateSectionPhysicalEnd (g : PageGeom) (fileOffset sectionLogicalLength : Nat) : Nat :=
  let sectionLogicalEnd := calculateSectionLogicalEnd g fileOffset sectionLogicalLength
  (sectionLogicalEnd / g.logicalSize) * g.size + sectionLogicalEnd % g.logicalSize

/-- Physical offset of a logical address, as the body of
`calculateSectionPhysicalEnd` computes it. -/
def physicalOfLogical (g : PageGeom) (l : Nat) : Nat :=
  (l / g.logicalSize) * g.size + l % g.logicalSize

/-- Logical address of a physical offset, as the body of
`calculateSectionLogicalEnd` computes it. -/
def logicalOfPhysical (g : PageGeom) (p : Nat) : Nat :=
  (p >>> g.shift) * g.logicalSize + (p &&& g.mask)

theorem calculateSectionLogicalEnd_eq (g : PageGeom) (p n : Nat) :
    calculateSectionLogicalEnd g p n = logicalOfPhysical g p + n := rfl

theorem calculateSectionPhysicalEnd_eq (g : PageGeom) (p n : Nat) :
    calculateSectionPhysicalEnd g p n = physicalOfLogical g (logicalOfPhysical g p + n) := rfl

theorem logicalSize_pos {g : PageGeom} {p : Nat}
    (hin : p &&& g.mask < g.logicalSize) : 0 < g.logicalSize :=
  Nat.pos_of_ne_zero (by omega)

/-- Unfolded views of a physical offset under a from-header geometry:
the page index is division by the page size and the in-page part is the
remainder. -/
theorem physical_split {g : PageGeom} (hg : g.FromHeader) (p : Nat) :
    p >>> g.shift = p / g.size ∧ p &&& g.mask = p % g.size := by
  obtain ⟨hsz, _, hmask⟩ := hg
  constructor
  · rw [hsz, Nat.shiftRight_eq_div_pow]
  · rw [hmask, hsz, Nat.and_pow_two_sub_one_eq_mod]

/-- Round trip of the address conversions: physical-to-logical then
logical-to-physical is the identity on offsets whose in-page part lies
in the payload. -/
theorem physicalOfLogical_logicalOfPhysical {g : PageGeom} (hg : g.FromHeader)
    {p : Nat} (hin : p &&& g.mask < g.logicalSize) :
    physicalOfLogical g (logicalOfPhysical g p) = p := by
  obtain ⟨hdiv, hmod⟩ := physical_split hg p
  have hls : 0 < g.logicalSize := logicalSize_pos hin
  unfold physicalOfLogical logicalOfPhysical
  rw [hmod] at hin
  rw [hdiv, hmod]
  have hL1 : (p / g.size * g.logicalSize + p % g.size) / g.logicalSize = p / g.size := by
    rw [Nat.mul_comm (p / g.size) g.logicalSize, Nat.mul_add_div hls]
    rw [Nat.div_eq_of_lt hin, Nat.add_zero]
  have hL2 : (p / g.size * g.logicalSize + p % g.size) % g.logicalSize = p % g.size := by
    rw [Nat.mul_comm (p / g.size) g.logicalSize, Nat.mul_add_mod]
    exact Nat.mod_eq_of_lt hin
  rw [hL1, hL2, Nat.mul_comm (p / g.size) g.size]
  have := Nat.div_add_mod p g.size
  omega

/-! checkPage from e57File.cpp: CRC of the first `logicalSize` bytes of
the page frame, compared with the four bytes that follow, read
big-endian. -/

/-- Big-endian 32-bit read, as `checkPage` reads the stored CRC:
`ptr[0] << 24 | ptr[1] << 16 | ptr[2] << 8 | ptr[3]`. -/
def getUint32BE (f : Nat → Nat) (o : Nat) : Nat :=
  (byteAt f o) <<< 24 ||| (byteAt f (o + 1)) <<< 16 |||
  (byteAt f (o + 2)) <<< 8 ||| byteAt f (o + 3)

/-- checkPage from e57File.cpp on one page frame (given as a byte
function): recompute the CRC of the payload and compare with the stored
big-endian reference. -/
def checkPage (g : PageGeom) (page : Nat → Nat) : Bool :=
  let crc := crc32c ((List.range g.logicalSize).map (byteAt page))
  let crcRef := getUint32BE page g.logicalSize
  crc == crcRef

/-! readE57Bytes from e57File.cpp: page-spanning payload read with CRC
verification of every touched frame and boundary normalization past
the trailing CRC word. -/

/-- Bytes of one page frame, as the view returned by
`e57Read(page * pageSize, pageSize)` exposes them. -/
def pageFun (f : Nat → Nat) (g : PageGeom) (page : Nat) : Nat → Nat :=
  fun i => f (page * g.size + i)

/-- Copy loop of `readE57Bytes`.  Each iteration verifies the current
frame, copies `min(logicalSize - offsetInPage, bytesToRead)` bytes and
sets the in-out offset to `page * pageSize + offsetInPage + copied`.
A failing `e57Read` (modelled by `pageOk`) leaves the source reading a
null view inside `checkPage`; that unrecoverable path is modelled as
`ioFailure`.  The first argument bounds the iteration count (the entry
check of `readE57Bytes` makes every iteration copy at least one byte,
so `bytesToRead` iterations always suffice); `none` reports an
exhausted bound and is unreachable from `readE57Bytes`. -/
def readGo (g : PageGeom) (f : Nat → Nat) (pageOk : Nat → Bool) :
    Nat → Nat → Nat → Nat → Nat → Option (Except Err (List Nat × Nat))
  | fuel, bytesToRead, page, offsetInPage, curOff =>
    if bytesToRead = 0 then some (.ok ([], curOff))
    else
      match fuel with
      | 0 => none
      | fuel + 1 =>
        if pageOk page = false then some (.error .ioFailure)
        else if checkPage g (pageFun f g page) = false then some (.error .crcMismatch)
        else
          let bytesToReadFromPage := min (g.logicalSize - offsetInPage) bytesToRead
          let chunk := (List.range bytesToReadFromPage).map
            (fun j => byteAt f (page * g.size + offsetInPage + j))
          match readGo g f pageOk fuel (bytesToRead - bytesToReadFromPage) (page + 1) 0
              (page * g.size + offsetInPage + bytesToReadFromPage) with
          | none => none
          | some (.error e) => some (.error e)
          | some (.ok (rest, endOff)) => some (.ok (chunk ++ rest, endOff))

/-- readE57Bytes from e57File.cpp.  Returns the copied bytes together
with the advanced in-out physical offset (after the boundary
normalization that skips a trailing CRC word). -/
def readE57Bytes (g : PageGeom) (f : Nat → Nat) (pageOk : Nat → Bool)
    (physicalOffset bytesToRead : Nat) : Option (Except Err (List Nat × Nat)) :=
  let page := physicalOffset >>> g.shift
  let offsetInPage := physicalOffset &&& g.mask
  if g.logicalSize ≤ offsetInPage then some (.error .outsidePayload)
  else
    match readGo g f pageOk bytesToRead bytesToRead page offsetInPage physicalOffset with
    | none => none
    | some (.error e) => some (.error e)
    | some (.ok (bs, off)) =>
      some (.ok (bs, if off &&& g.mask = g.logicalSize then off + 4 else off))

/-- Sequential `readE57Bytes` calls threading the in-out physical
offset, with the listed byte counts. -/
def readSeq (g : PageGeom) (f : Nat → Nat) (pageOk : Nat → Bool) :
    Nat → List Nat → Option (Except Err Nat)
  | off, [] => some (.ok off)
  | off, n :: ns =>
    match readE57Bytes g f pageOk off n with
    | none => none
    | some (.error e) => some (.error e)
    | some (.ok (_, off2)) => readSeq g f pageOk off2 ns

theorem readGo_ok_shape {g : PageGeom} {f : Nat → Nat} {pageOk : Nat → Bool}
    {fuel n page o curOff : Nat} {bs : List Nat} {off : Nat}
    (hn : n ≠ 0) (ho : o < g.logicalSize) (hfuel : n ≤ fuel)
    (h : readGo g f pageOk fuel n page o curOff = some (.ok (bs, off))) :
    ∃ pf qf, off = pf * g.size + qf ∧ 1 ≤ qf ∧ qf ≤ g.logicalSize ∧
      pf * g.logicalSize + qf = page * g.logicalSize + o + n := by
  induction fuel generalizing n page o curOff bs off with
  | zero => omega
  | succ fuel ih =>
    rw [readGo, if_neg hn] at h
    rcases hpo : pageOk page with _ | _
    · rw [hpo] at h; simp at h
    rw [hpo] at h
    rcases hcp : checkPage g (pageFun f g page) with _ | _
    · rw [hcp] at h; simp at h
    rw [hcp] at h
    simp only [Bool.true_eq_false, if_false] at h
    rcases Nat.lt_or_ge (g.logicalSize - o) n with hlt | hge
    · -- the page is exhausted before the request: copy `logicalSize - o`
      -- bytes and continue on the next page
      have hmin : min (g.logicalSize - o) n = g.logicalSize - o := by omega
      rw [hmin] at h
      rcases hrec : readGo g f pageOk fuel (n - (g.logicalSize - o)) (page + 1) 0
          (page * g.size + o + (g.logicalSize - o)) with _ | res
      · rw [hrec] at h; simp at h
      rcases res with e | ⟨rest, endOff⟩
      · rw [hrec] at h; simp at h
      rw [hrec] at h
      simp only [Option.some.injEq, Except.ok.injEq, Prod.mk.injEq] at h
      obtain ⟨-, hoff⟩ := h
      subst hoff
      obtain ⟨pf, qf, he, h1, h2, h3⟩ :=
        ih (n := n - (g.logicalSize - o)) (by omega) (by omega) (by omega) hrec
      have hexp : (page + 1) * g.logicalSize = page * g.logicalSize + g.logicalSize :=
        Nat.succ_mul page g.logicalSize
      rw [hexp] at h3
      exact ⟨pf, qf, he, h1, h2, by omega⟩
    · -- the request ends inside this page
      have hmin : min (g.logicalSize - o) n = n := by omega
      rw [hmin] at h
      rcases hrec : readGo g f pageOk fuel (n - n) (page + 1) 0
          (page * g.size + o + n) with _ | res
      · rw [hrec] at h; simp at h
      have hbase : readGo g f pageOk fuel (n - n) (page + 1) 0
          (page * g.size + o + n) = some (.ok ([], page * g.size + o + n)) := by
        rw [readGo.eq_def]
        simp [Nat.sub_self]
      rw [hbase] at h
      simp only [Option.some.injEq, Except.ok.injEq, Prod.mk.injEq] at h
      obtain ⟨-, hoff⟩ := h
      subst hoff
      exact ⟨page, o + n, by omega, by omega, by omega, by omega⟩
theorem logicalOfPhysical_physicalOfLogical {g : PageGeom} (hg : g.FromHeader)
    (hls : 0 < g.logicalSize) (L : Nat) :
    logicalOfPhysical g (physicalOfLogical g L) = L := by
  obtain ⟨hsz, hlog, hmask⟩ := hg
  have hszpos : 0 < g.size := by
    rw [hsz]; exact Nat.pos_pow_of_pos _ (by norm_num)
  have hlt : L % g.logicalSize < g.size := by
    have := Nat.mod_lt L hls
    omega
  obtain ⟨hdiv, hmod⟩ := physical_split ⟨hsz, hlog, hmask⟩ (physicalOfLogical g L)
  unfold logicalOfPhysical
  rw [hdiv, hmod]
  unfold physicalOfLogical
  have h1 : (L / g.logicalSize * g.size + L % g.logicalSize) / g.size = L / g.logicalSize := by
    rw [Nat.mul_comm (L / g.logicalSize) g.size, Nat.mul_add_div hszpos,
      Nat.div_eq_of_lt hlt, Nat.add_zero]
  have h2 : (L / g.logicalSize * g.size + L % g.logicalSize) % g.size = L % g.logicalSize := by
    rw [Nat.mul_comm (L / g.logicalSize) g.size, Nat.mul_add_mod]
    exact Nat.mod_eq_of_lt hlt
  rw [h1, h2]
  have := Nat.div_add_mod L g.logicalSize
  calc L / g.logicalSize * g.logicalSize + L % g.logicalSize
      = g.logicalSize * (L / g.logicalSize) + L % g.logicalSize := by
        rw [Nat.mul_comm]
    _ = L := Nat.div_add_mod L g.logicalSize

theorem physicalOfLogical_split {g : PageGeom}
    {pf qf : Nat} (hq : qf < g.logicalSize) :
    physicalOfLogical g (pf * g.logicalSize + qf) = pf * g.size + qf := by
  have hls : 0 < g.logicalSize := by omega
  unfold physicalOfLogical
  rw [Nat.mul_comm pf g.logicalSize, Nat.mul_add_div hls, Nat.mul_add_mod,
    Nat.div_eq_of_lt hq, Nat.mod_eq_of_lt hq, Nat.add_zero]

/-- Characterization of a successful `readE57Bytes` call: the returned
in-out offset is the physical image of the advanced logical address,
and it always lands inside a page payload. -/
theorem readE57Bytes_ok {g : PageGeom} {f : Nat → Nat} {pageOk : Nat → Bool}
    {p n : Nat} {bs : List Nat} {off : Nat} (hg : g.FromHeader)
    (h : readE57Bytes g f pageOk p n = some (.ok (bs, off))) :
    off = physicalOfLogical g (logicalOfPhysical g p + n) ∧
      off &&& g.mask < g.logicalSize := by
  obtain ⟨hsz, hlog, hmask⟩ := hg
  unfold readE57Bytes at h
  rcases Nat.lt_or_ge (p &&& g.mask) g.logicalSize with hin | hout
  swap
  · rw [if_pos hout] at h; simp at h
  rw [if_neg (by omega)] at h
  have hls : 0 < g.logicalSize := by omega
  have hszge : 5 ≤ g.size := by omega
  rcases Nat.eq_zero_or_pos n with hn | hn
  · subst hn
    have hbase : readGo g f pageOk 0 0 (p >>> g.shift) (p &&& g.mask) p =
        some (.ok ([], p)) := by
      rw [readGo.eq_def]; simp
    rw [hbase] at h
    simp only [Option.some.injEq, Except.ok.injEq, Prod.mk.injEq] at h
    obtain ⟨-, hoff⟩ := h
    rw [if_neg (by omega)] at hoff
    subst hoff
    refine ⟨?_, hin⟩
    rw [Nat.add_zero, physicalOfLogical_logicalOfPhysical ⟨hsz, hlog, hmask⟩ hin]
  · rcases hrec : readGo g f pageOk n n (p >>> g.shift) (p &&& g.mask) p with _ | res
    · rw [hrec] at h; simp at h
    rcases res with e | ⟨bs0, off0⟩
    · rw [hrec] at h; simp at h
    rw [hrec] at h
    obtain ⟨pf, qf, he, h1, h2, h3⟩ :=
      readGo_ok_shape (by omega) hin (Nat.le_refl n) hrec
    simp only [Option.some.injEq, Except.ok.injEq, Prod.mk.injEq] at h
    obtain ⟨-, hoff⟩ := h
    have hqsz : qf < g.size := by omega
    have hmaskoff : off0 &&& g.mask = qf := by
      rw [hmask, hsz, Nat.and_pow_two_sub_one_eq_mod, ← hsz, he,
        Nat.mul_comm pf g.size, Nat.mul_add_mod]
      exact Nat.mod_eq_of_lt hqsz
    have hL : logicalOfPhysical g p + n = pf * g.logicalSize + qf := by
      unfold logicalOfPhysical
      omega
    rcases Nat.lt_or_ge qf g.logicalSize with hqlt | hqge
    · rw [hmaskoff, if_neg (by omega)] at hoff
      subst hoff
      rw [hL, physicalOfLogical_split hqlt, ← he]
      exact ⟨rfl, by omega⟩
    · have hqeq : qf = g.logicalSize := by omega
      rw [hmaskoff, if_pos hqeq] at hoff
      subst hoff
      have hoffv : off0 + 4 = (pf + 1) * g.size := by
        rw [he, hqeq, Nat.succ_mul]
        omega
      have hLv : logicalOfPhysical g p + n = (pf + 1) * g.logicalSize := by
        rw [hL, hqeq, Nat.succ_mul]
      constructor
      · rw [hLv, hoffv]
        have := @physicalOfLogical_split g (pf + 1) 0 hls
        simpa using this.symm
      · rw [hoffv, hmask, hsz, Nat.and_pow_two_sub_one_eq_mod, ← hsz,
          Nat.mul_mod_left]
        exact hls

theorem readSeq_ok {g : PageGeom} {f : Nat → Nat} {pageOk : Nat → Bool}
    (hg : g.FromHeader) :
    ∀ (ns : List Nat) (p off : Nat), p &&& g.mask < g.logicalSize →
      readSeq g f pageOk p ns = some (.ok off) →
      off = physicalOfLogical g (logicalOfPhysical g p + ns.sum) := by
  intro ns
  induction ns with
  | nil =>
    intro p off hin h
    simp only [readSeq, Option.some.injEq, Except.ok.injEq] at h
    subst h
    rw [List.sum_nil, Nat.add_zero, physicalOfLogical_logicalOfPhysical hg hin]
  | cons n ns ih =>
    intro p off hin h
    simp only [readSeq] at h
    rcases hr : readE57Bytes g f pageOk p n with _ | res
    · rw [hr] at h; simp at h
    rcases res with e | ⟨bs, off2⟩
    · rw [hr] at h; simp at h
    rw [hr] at h
    obtain ⟨hoff2, hin2⟩ := readE57Bytes_ok hg hr
    have hls : 0 < g.logicalSize := logicalSize_pos hin
    have := ih off2 off hin2 h
    rw [this, hoff2, logicalOfPhysical_physicalOfLogical hg hls, List.sum_cons,
      Nat.add_assoc]

/-- readE57Bytes advances the offset past the CRC: consuming exactly one
page payload advances the physical offset by the full page size, and
every successful read leaves the offset strictly inside a payload
(the boundary normalization adds 4 whenever a read ends exactly on the
CRC word). -/
theorem readE57Bytes_page_advance {g : PageGeom} (f : Nat → Nat) (pageOk : Nat → Bool)
    (hg : g.FromHeader) (hsz : 8 ≤ g.size) :
    (∀ p n bs off, readE57Bytes g f pageOk p n = some (.ok (bs, off)) →
        off &&& g.mask < g.logicalSize) ∧
    (∀ p ns off, p &&& g.mask = 0 → ns.sum = g.logicalSize →
        readSeq g f pageOk p ns = some (.ok off) → off = p + g.size) := by
  obtain ⟨hszs, hlog, hmask⟩ := hg
  have hls : 0 < g.logicalSize := by omega
  constructor
  · intro p n bs off h
    exact (readE57Bytes_ok ⟨hszs, hlog, hmask⟩ h).2
  · intro p ns off hstart hsum h
    have hin : p &&& g.mask < g.logicalSize := by omega
    have hoff := readSeq_ok ⟨hszs, hlog, hmask⟩ ns p off hin h
    rw [hsum] at hoff
    have hpage : p = p >>> g.shift * g.size := by
      obtain ⟨hdiv, hmod⟩ := physical_split ⟨hszs, hlog, hmask⟩ p
      rw [hmod] at hstart
      rw [hdiv]
      have hdm := Nat.div_add_mod p g.size
      rw [Nat.mul_comm] at hdm
      omega
    have hlogp : logicalOfPhysical g p = p >>> g.shift * g.logicalSize := by
      unfold logicalOfPhysical
      omega
    rw [hlogp] at hoff
    have hsucc : p >>> g.shift * g.logicalSize + g.logicalSize =
        (p >>> g.shift + 1) * g.logicalSize := (Nat.succ_mul _ _).symm
    rw [hsucc] at hoff
    have := @physicalOfLogical_split g (p >>> g.shift + 1) 0 hls
    rw [Nat.add_zero] at this
    rw [this] at hoff
    rw [hoff, Nat.succ_mul]
    omega

/-- checkPage accepts a frame exactly when the reference CRC-32C of the
payload equals the stored big-endian CRC word, and a mismatching frame
makes `readE57Bytes` fail with `crcMismatch`. -/
theorem readGo_ok_checkPage {g : PageGeom} {f : Nat → Nat} {pageOk : Nat → Bool} :
    ∀ fuel n page o curOff bs off, n ≠ 0 → o < g.logicalSize →
      readGo g f pageOk fuel n page o curOff = some (.ok (bs, off)) →
      ∀ q, page ≤ q → q * g.logicalSize < page * g.logicalSize + o + n →
      checkPage g (pageFun f g q) = true := by
  intro fuel
  induction fuel with
  | zero =>
    intro n page o curOff bs off hn ho h
    rw [readGo.eq_def] at h
    simp only [] at h
    rw [if_neg hn] at h
    simp at h
  | succ fuel ih =>
    intro n page o curOff bs off hn ho h
    rw [readGo, if_neg hn] at h
    rcases hpo : pageOk page with _ | _
    · rw [hpo] at h; simp at h
    rw [hpo] at h
    rcases hcp : checkPage g (pageFun f g page) with _ | _
    · rw [hcp] at h; simp at h
    rw [hcp] at h
    simp only [Bool.true_eq_false, if_false] at h
    intro q hq1 hq2
    rcases Nat.eq_or_lt_of_le hq1 with hq | hq
    · rw [← hq]; exact hcp
    · have hqmul : (page + 1) * g.logicalSize ≤ q * g.logicalSize :=
        Nat.mul_le_mul_right _ hq
      have hsucc : (page + 1) * g.logicalSize = page * g.logicalSize + g.logicalSize :=
        Nat.succ_mul _ _
      rcases Nat.lt_or_ge (g.logicalSize - o) n with hlt | hge
      · have hmin : min (g.logicalSize - o) n = g.logicalSize - o := by omega
        rw [hmin] at h
        rcases hrec : readGo g f pageOk fuel (n - (g.logicalSize - o)) (page + 1) 0
            (page * g.size + o + (g.logicalSize - o)) with _ | res
        · rw [hrec] at h; simp at h
        rcases res with e | ⟨rest, endOff⟩
        · rw [hrec] at h; simp at h
        exact ih (n - (g.logicalSize - o)) (page + 1) 0 _ rest endOff (by omega)
          (by omega) hrec q (by omega) (by omega)
      · have hmin : min (g.logicalSize - o) n = n := by omega
        exfalso
        omega

/-- checkPage accepts a frame exactly when the reference CRC-32C of
the payload equals the stored big-endian CRC word; a mismatching frame
makes `readE57Bytes` fail with `crcMismatch`, and a successful
`readE57Bytes` has verified every page frame it touched. -/
theorem checkPage_crc32c_spec (g : PageGeom) (f pg : Nat → Nat) (pageOk : Nat → Bool) :
    (checkPage g pg = true ↔
      crc32cReference ((List.range g.logicalSize).map (byteAt pg)) =
        getUint32BE pg g.logicalSize) ∧
    (∀ p n, p &&& g.mask < g.logicalSize → n ≠ 0 →
      checkPage g (pageFun f g (p >>> g.shift)) = false →
      pageOk (p >>> g.shift) = true →
      readE57Bytes g f pageOk p n = some (.error .crcMismatch)) ∧
    (∀ p n bs off, n ≠ 0 → readE57Bytes g f pageOk p n = some (.ok (bs, off)) →
      ∀ q, p >>> g.shift ≤ q → q * g.logicalSize < logicalOfPhysical g p + n →
      checkPage g (pageFun f g q) = true) := by
  refine ⟨?_, ?_, ?_⟩
  · unfold checkPage
    rw [beq_iff_eq]
    rw [crc32c_eq_reference]
    intro b hb
    obtain ⟨i, -, hi⟩ := List.mem_map.mp hb
    rw [← hi]
    exact byteAt_lt pg i
  · intro p n hin hn hcp hpo
    unfold readE57Bytes
    rw [if_neg (by omega)]
    obtain ⟨m, rfl⟩ := Nat.exists_eq_succ_of_ne_zero hn
    have hgo : readGo g f pageOk (m + 1) (m + 1) (p >>> g.shift) (p &&& g.mask) p =
        some (.error .crcMismatch) := by
      rw [readGo]
      rw [if_neg (Nat.succ_ne_zero m), hpo, hcp]
      simp
    rw [hgo]
  · intro p n bs off hn h
    unfold readE57Bytes at h
    rcases Nat.lt_or_ge (p &&& g.mask) g.logicalSize with hin | hout
    swap
    · rw [if_pos hout] at h; simp at h
    rw [if_neg (by omega)] at h
    rcases hgo : readGo g f pageOk n n (p >>> g.shift) (p &&& g.mask) p with _ | res
    · rw [hgo] at h; simp at h
    rcases res with e | ⟨bs0, off0⟩
    · rw [hgo] at h; simp at h
    intro q hq1 hq2
    exact readGo_ok_checkPage n n (p >>> g.shift) (p &&& g.mask) p bs0 off0 hn hin hgo
      q hq1 hq2

/-! parseHeader and openE57 from e57File.cpp. -/

theorem ne_zero_has_bit {m : Nat} (hm : m ≠ 0) : ∃ i, m.testBit i = true := by
  by_contra hall
  push_neg at hall
  apply hm
  apply Nat.eq_of_testBit_eq
  intro i
  rw [Nat.zero_testBit]
  cases h : m.testBit i with
  | false => rfl
  | true => exact absurd h (hall i)

/-- Numbers passing the `pageSize & (pageSize - 1)` check of
`parseHeader` are exactly the powers of two. -/
theorem pow_of_and_pred_zero : ∀ n : Nat, n ≠ 0 → n &&& (n - 1) = 0 → ∃ k, n = 2 ^ k := by
  intro n
  induction n using Nat.strong_induction_on with
  | _ n ih =>
    intro hn h
    rcases Nat.mod_two_eq_zero_or_one n with he | ho
    · have hm : n / 2 ≠ 0 := by omega
      have hrec : (n / 2) &&& (n / 2 - 1) = 0 := by
        apply Nat.eq_of_testBit_eq
        intro i
        rw [Nat.zero_testBit, Nat.testBit_land]
        have h1 : (n / 2).testBit i = n.testBit (i + 1) := by
          rw [Nat.testBit_add_one]
        have h2 : (n / 2 - 1).testBit i = (n - 1).testBit (i + 1) := by
          rw [Nat.testBit_add_one]
          congr 1
          omega
        rw [h1, h2, ← Nat.testBit_land, h, Nat.zero_testBit]
      obtain ⟨k, hk⟩ := ih (n / 2) (by omega) hm hrec
      exact ⟨k + 1, by rw [pow_succ]; omega⟩
    · rcases Nat.lt_or_ge n 2 with h1 | h2
      · exact ⟨0, by omega⟩
      · exfalso
        obtain ⟨i, hi⟩ := ne_zero_has_bit (m := n - 1) (by omega)
        have hi0 : i ≠ 0 := by
          intro h0
          rw [h0, Nat.testBit_zero] at hi
          have : (n - 1) % 2 = 0 := by omega
          simp [this] at hi
        obtain ⟨j, rfl⟩ := Nat.exists_eq_succ_of_ne_zero hi0
        have hsame : n.testBit (j + 1) = (n - 1).testBit (j + 1) := by
          rw [Nat.testBit_add_one, Nat.testBit_add_one]
          congr 1
          omega
        have hbit : (n &&& (n - 1)).testBit (j + 1) = true := by
          rw [Nat.testBit_land, hsame, hi]
          rfl
        rw [h, Nat.zero_testBit] at hbit
        exact Bool.noConfusion hbit

/-- ASCII codes of the file signature "ASTM-E57". -/
def signature : List Nat := [65, 83, 84, 77, 45, 69, 53, 55]

/-- Fields of `E57File::Header`. -/
structure E57Header where
  major : Nat
  minor : Nat
  filePhysicalLength : Nat
  xmlPhysicalOffset : Nat
  xmlLogicalLength : Nat
  pageSize : Nat
  deriving Repr, DecidableEq

/-- parseHeader from e57File.cpp: size check of the 48-byte header,
`e57Read` of it (`hdrReadOk` models the size-checked read succeeding),
signature compare, little-endian field decode, power-of-two check on
`pageSize`, and the derived page geometry. -/
def parseHeader (fileSize : Nat) (f : Nat → Nat) (hdrReadOk : Bool) :
    Except Err (E57Header × PageGeom) :=
  if fileSize < 48 then .error .shortFile
  else if hdrReadOk = false then .error .ioFailure
  else if (List.range 8).map (byteAt f) ≠ signature then .error .badSignature
  else
    let hdr : E57Header :=
      { major := getUint32LE f 8
        minor := getUint32LE f 12
        filePhysicalLength := getUint64LE f 16
        xmlPhysicalOffset := getUint64LE f 24
        xmlLogicalLength := getUint64LE f 32
        pageSize := getUint64LE f 40 }
    if hdr.pageSize = 0 ∨ hdr.pageSize &&& (hdr.pageSize - 1) ≠ 0 then .error .badPageSize
    else .ok (hdr, pageGeomOf hdr.pageSize)

/-- openE57 from e57File.cpp, to the extent the header claims need it:
parse the header, then read the XML payload through `readE57Bytes`.
The XML parse itself (`parseE57Xml`, outside the modelled core) is
abstracted by the `xmlOk` flag; a successful open requires all three
steps to succeed. -/
def openE57 (fileSize : Nat) (f : Nat → Nat) (hdrReadOk : Bool) (pageOk : Nat → Bool)
    (xmlOk : Bool) : Option (Except Err (E57Header × PageGeom)) :=
  match parseHeader fileSize f hdrReadOk with
  | .error e => some (.error e)
  | .ok (hdr, g) =>
    match readE57Bytes g f pageOk hdr.xmlPhysicalOffset hdr.xmlLogicalLength with
    | none => none
    | some (.error e) => some (.error e)
    | some (.ok _) =>
      if xmlOk then some (.ok (hdr, g)) else some (.error .xmlParseFailed)

theorem readE57Bytes_ok_entry {g : PageGeom} {f : Nat → Nat} {pageOk : Nat → Bool}
    {p n : Nat} {r : List Nat × Nat}
    (h : readE57Bytes g f pageOk p n = some (.ok r)) :
    p &&& g.mask < g.logicalSize := by
  unfold readE57Bytes at h
  rcases Nat.lt_or_ge (p &&& g.mask) g.logicalSize with hin | hout
  · exact hin
  · rw [if_pos hout] at h
    simp at h

/-- parseHeader rejects a wrong signature with `badSignature` and a
non-power-of-two page size with `badPageSize`; after a successful open
the header invariant holds: the page size is a power of two, at least
8, and the logical page size is four less. -/
theorem parseHeader_checks_and_invariant (fileSize : Nat) (f : Nat → Nat)
    (hdrReadOk : Bool) (pageOk : Nat → Bool) (xmlOk : Bool) :
    (48 ≤ fileSize → hdrReadOk = true →
      (List.range 8).map (byteAt f) ≠ signature →
      parseHeader fileSize f hdrReadOk = .error .badSignature) ∧
    (48 ≤ fileSize → hdrReadOk = true →
      (List.range 8).map (byteAt f) = signature →
      (¬ ∃ k, getUint64LE f 40 = 2 ^ k) →
      parseHeader fileSize f hdrReadOk = .error .badPageSize) ∧
    (∀ hdr g, openE57 fileSize f hdrReadOk pageOk xmlOk = some (.ok (hdr, g)) →
      (∃ k, hdr.pageSize = 2 ^ k) ∧ 8 ≤ hdr.pageSize ∧
        g.size = hdr.pageSize ∧ g.logicalSize + 4 = g.size) := by
  refine ⟨?_, ?_, ?_⟩
  · intro hfs hok hsig
    unfold parseHeader
    rw [if_neg (by omega), hok]
    simp only [Bool.true_eq_false, if_false]
    rw [if_pos hsig]
  · intro hfs hok hsig hpow
    unfold parseHeader
    rw [if_neg (by omega), hok]
    simp only [Bool.true_eq_false, if_false]
    rw [if_neg (by simp [hsig])]
    rw [if_pos]
    by_contra hcond
    push_neg at hcond
    obtain ⟨hnz, hland⟩ := hcond
    exact hpow (pow_of_and_pred_zero _ hnz hland)
  · intro hdr g hopen
    unfold openE57 at hopen
    rcases hph : parseHeader fileSize f hdrReadOk with e | ⟨hdr0, g0⟩
    · rw [hph] at hopen; simp at hopen
    rw [hph] at hopen
    simp only [] at hopen
    rcases hrd : readE57Bytes g0 f pageOk hdr0.xmlPhysicalOffset hdr0.xmlLogicalLength
      with _ | res
    · rw [hrd] at hopen; simp at hopen
    rcases res with e | r
    · rw [hrd] at hopen; simp at hopen
    rw [hrd] at hopen
    rcases xmlOk with _ | _
    · simp at hopen
    simp only [if_true] at hopen
    simp only [Option.some.injEq, Except.ok.injEq, Prod.mk.injEq] at hopen
    obtain ⟨hh, hgg⟩ := hopen
    rw [← hh, ← hgg]
    -- extract the structure of the parsed header
    unfold parseHeader at hph
    rcases Nat.lt_or_ge fileSize 48 with hfs | hfs
    · rw [if_pos hfs] at hph; simp at hph
    rw [if_neg (by omega)] at hph
    rcases hdrReadOk with _ | _
    · simp at hph
    simp only [Bool.true_eq_false, if_false] at hph
    rcases hs : decide ((List.range 8).map (byteAt f) = signature) with _ | _
    · rw [if_pos (by simpa using hs)] at hph
      simp at hph
    have hsig : (List.range 8).map (byteAt f) = signature := by simpa using hs
    rw [if_neg (by simp [hsig])] at hph
    rcases hcond : decide (getUint64LE f 40 = 0 ∨
        getUint64LE f 40 &&& (getUint64LE f 40 - 1) ≠ 0) with _ | _
    swap
    · rw [if_pos (by simpa using hcond)] at hph
      simp at hph
    have hcnot : ¬ (getUint64LE f 40 = 0 ∨
        getUint64LE f 40 &&& (getUint64LE f 40 - 1) ≠ 0) := by simpa using hcond
    push_neg at hcnot
    obtain ⟨hnz, hland⟩ := hcnot
    rw [if_neg (by simp [hnz, hland])] at hph
    simp only [Except.ok.injEq, Prod.mk.injEq] at hph
    obtain ⟨hhdr, hgeo⟩ := hph
    obtain ⟨k, hk⟩ := pow_of_and_pred_zero _ hnz hland
    have hps : hdr0.pageSize = getUint64LE f 40 := by rw [← hhdr]
    have hgs : g0.size = hdr0.pageSize ∧ g0.logicalSize = hdr0.pageSize - 4 := by
      rw [← hgeo, ← hhdr]
      exact ⟨rfl, rfl⟩
    have hentry := readE57Bytes_ok_entry hrd
    have hls : 0 < g0.logicalSize := by omega
    have hge5 : 5 ≤ hdr0.pageSize := by omega
    have hk3 : 3 ≤ k := by
      by_contra hk3
      push_neg at hk3
      have : (2 : Nat) ^ k ≤ 2 ^ 2 :=
        Nat.pow_le_pow_right (by norm_num) (by omega)
      omega
    have h8 : 8 ≤ hdr0.pageSize := by
      have : (2 : Nat) ^ 3 ≤ 2 ^ k := Nat.pow_le_pow_right (by norm_num) hk3
      omega
    exact ⟨⟨k, by omega⟩, h8, hgs.1, by omega⟩

/-! getPacket of the compressed-vector reader: cached packet fetch and
data-packet stream-offset decoding. -/

/-- Cached packet state of the reader `Context`: `Context::packet`
(current/next offset, raw type byte, size, buffer bytes) together with
the decoded `Context::dataPacket` fields (stream count and offsets).
The buffer is a total function; bytes the current packet has not
overwritten keep their previous (stale) contents, exactly as the
reused C++ buffer does.  The uninitialized initial buffer and offsets
array are modelled as zeros/empty; fields a failing fetch leaves
partially updated are never read afterwards (the coordinator aborts),
and the model keeps their previous values where the partial write is
not visible below. -/
structure PacketState where
  currentOffset : Nat
  nextOffset : Nat
  size : Nat
  ptype : Nat
  pdata : Nat -> Nat
  byteStreamsCount : Nat
  byteStreamOffsets : List Nat

/-- Fresh `Context` state: both cached offsets are 0, the packet type
byte is Empty (2), buffer uninitialized. -/
def PacketState.init : PacketState :=
  { currentOffset := 0, nextOffset := 0, size := 0, ptype := 2
    pdata := fun _ => 0, byteStreamsCount := 0, byteStreamOffsets := [] }

/-- Stream-offset construction loop of `getPacket` for a Data packet:
`byteStreamOffsets[i] = offset; offset += length[i]; fail with
StreamOverflow if packet.size < offset`, then one more entry for the
end offset.  The accumulator is a `uint32_t`, hence the reduction on
the sum; `remaining` counts streams still to process and `i` is the
loop index. -/
def streamOffsetsGo (pd : Nat -> Nat) (size : Nat) : Nat -> Nat -> Nat -> Except Err (List Nat)
  | 0, _, offset => .ok [offset]
  | remaining + 1, i, offset =>
    let offsetNext := (offset + getUint16LE pd (6 + 2 * i)) % 2 ^ 32
    if size < offsetNext then .error .streamOverflow
    else
      match streamOffsetsGo pd size remaining (i + 1) offsetNext with
      | .error e => .error e
      | .ok offs => .ok (offset :: offs)

/-- Data-packet decoding stage of `getPacket` (after the header and
type checks succeeded): 4-byte alignment check on the packet size,
stream count at byte offset 4 (EmptyData when 0), then the cumulative
stream offsets starting at `6 + 2 * streamCount`. -/
def decodeData (size : Nat) (pd : Nat -> Nat) : Except Err (Nat × List Nat) :=
  if size &&& 3 != 0 then .error .badPacketAlignment
  else
    let byteStreamsCount := getUint16LE pd 4
    if byteStreamsCount = 0 then .error .emptyData
    else
      match streamOffsetsGo pd size byteStreamsCount 0 (6 + 2 * byteStreamsCount) with
      | .error e => .error e
      | .ok offs => .ok (byteStreamsCount, offs)

/-- Fetch-and-decode path of `getPacket` on a cache miss, with the
mutated `Context` state threaded so failures return the partially
updated fields: `currentOffset` is set to the requested offset before
any read, the 4-byte header supplies the raw type byte and
`size = data[2] + (data[3] << 8) + 1`, the rest of the packet is read
after the size and type checks, and a Data packet is decoded with
`decodeData`.  The result value is the advanced physical offset
(`nextOffset`).  `none` propagates an exhausted page-read bound
(unreachable from the callers below). -/
def getPacketFetch (g : PageGeom) (f : Nat -> Nat) (pageOk : Nat -> Bool)
    (ps : PacketState) (packetOffset expected : Nat) :
    Option (PacketState × Except Err Nat) :=
  let ps1 := { ps with currentOffset := packetOffset }
  match readE57Bytes g f pageOk packetOffset 4 with
  | none => none
  | some (.error e) => some (ps1, .error e)
  | some (.ok (hdr, off1)) =>
    let pdata1 := fun i => if i < 4 then hdr.getD i 0 else ps1.pdata i
    let ptype := hdr.getD 0 0
    let size := hdr.getD 2 0 + ((hdr.getD 3 0) <<< 8) + 1
    let ps2 := { ps1 with ptype := ptype, size := size, pdata := pdata1 }
    if size < 4 then some (ps2, .error .packetTooSmall)
    else if ptype != expected then some (ps2, .error .unexpectedPacketKind)
    else
      match readE57Bytes g f pageOk off1 (size - 4) with
      | none => none
      | some (.error e) => some (ps2, .error e)
      | some (.ok (rest, off2)) =>
        let pdata2 := fun i =>
          if i < 4 then hdr.getD i 0
          else if i < size then rest.getD (i - 4) 0
          else ps.pdata i
        let ps3 := { ps2 with pdata := pdata2 }
        if ptype = 1 then
          match decodeData size pdata2 with
          | .error e => some (ps3, .error e)
          | .ok (sc, offs) =>
            let ps4 := { ps3 with byteStreamsCount := sc, byteStreamOffsets := offs }
            some ({ ps4 with nextOffset := off2 }, .ok off2)
        else
          some ({ ps3 with nextOffset := off2 }, .ok off2)

/-- getPacket of the compressed-vector reader.  A hit on the cached
`currentOffset` returns the cached `nextOffset` without touching the
file.  Otherwise the packet is fetched and decoded; every failure path
returns 0 after resetting both cached offsets to 0, mirroring
`return ctx.packet.nextOffset = ctx.packet.currentOffset = 0`. -/
def getPacket (g : PageGeom) (f : Nat -> Nat) (pageOk : Nat -> Bool)
    (ps : PacketState) (packetOffset expected : Nat) :
    Option (Nat × PacketState) :=
  if ps.currentOffset = packetOffset then some (ps.nextOffset, ps)
  else
    match getPacketFetch g f pageOk ps packetOffset expected with
    | none => none
    | some (ps2, .error _) =>
      some (0, { ps2 with currentOffset := 0, nextOffset := 0 })
    | some (ps2, .ok nxt) => some (nxt, ps2)

/-- Cumulative stream offsets as the specification states them:
`cum 0 = 6 + 2 * streamCount` and `cum (i+1) = cum i + length[i]`,
where `length[i]` is the little-endian 16-bit value at byte offset
`6 + 2 i` of the packet. -/
def cumOffsets (pd : Nat -> Nat) (sc : Nat) : Nat -> Nat
  | 0 => 6 + 2 * sc
  | i + 1 => cumOffsets pd sc i + getUint16LE pd (6 + 2 * i)

theorem streamOffsetsGo_length (pd : Nat -> Nat) (size : Nat) :
    ∀ remaining i offset offs,
      streamOffsetsGo pd size remaining i offset = .ok offs ->
      offs.length = remaining + 1 := by
  intro remaining
  induction remaining with
  | zero =>
    intro i offset offs h
    simp only [streamOffsetsGo, Except.ok.injEq] at h
    rw [<- h]
    rfl
  | succ remaining ih =>
    intro i offset offs h
    simp only [streamOffsetsGo] at h
    rcases Nat.lt_or_ge size ((offset + getUint16LE pd (6 + 2 * i)) % 2 ^ 32) with hlt | hge
    · rw [if_pos hlt] at h; simp at h
    rw [if_neg (by omega)] at h
    rcases hrec : streamOffsetsGo pd size remaining (i + 1)
        ((offset + getUint16LE pd (6 + 2 * i)) % 2 ^ 32) with e | offs0
    · rw [hrec] at h; simp at h
    rw [hrec] at h
    simp only [Except.ok.injEq] at h
    rw [<- h, List.length_cons, ih _ _ _ hrec]

theorem streamOffsetsGo_spec (pd : Nat -> Nat) (size sc : Nat) (hsz : size ≤ 65536) :
    ∀ remaining i, i + remaining = sc -> cumOffsets pd sc i ≤ 131076 ->
    ((∀ j, i ≤ j -> j < sc -> cumOffsets pd sc (j + 1) ≤ size) ->
      streamOffsetsGo pd size remaining i (cumOffsets pd sc i) =
        .ok ((List.range (remaining + 1)).map (fun j => cumOffsets pd sc (i + j)))) ∧
    ((∃ j, i ≤ j ∧ j < sc ∧ size < cumOffsets pd sc (j + 1)) ->
      streamOffsetsGo pd size remaining i (cumOffsets pd sc i) = .error .streamOverflow) := by
  intro remaining
  induction remaining with
  | zero =>
    intro i hi hbound
    constructor
    · intro hok
      simp only [streamOffsetsGo]
      rw [show List.range 1 = [0] from rfl, List.map_cons, List.map_nil, Nat.add_zero]
    · intro hbad
      obtain ⟨j, hj1, hj2, hj3⟩ := hbad
      omega
  | succ remaining ih =>
    intro i hi hbound
    have hlen := getUint16LE_lt pd (6 + 2 * i)
    have hmodid : (cumOffsets pd sc i + getUint16LE pd (6 + 2 * i)) % 2 ^ 32 =
        cumOffsets pd sc (i + 1) := by
      rw [Nat.mod_eq_of_lt (by norm_num at *; omega)]
      rfl
    constructor
    · intro hok
      have hnext : cumOffsets pd sc (i + 1) ≤ size := hok i (Nat.le_refl i) (by omega)
      simp only [streamOffsetsGo]
      rw [hmodid, if_neg (by omega)]
      have hrec := (ih (i + 1) (by omega) (by omega)).1
        (fun j hj1 hj2 => hok j (by omega) hj2)
      rw [hrec]
      simp only []
      congr 1
      conv_rhs => rw [List.range_succ_eq_map, List.map_cons, List.map_map]
      congr 1
      apply List.map_congr_left
      intro a ha
      simp only [Function.comp_apply]
      congr 1
      omega
    · intro hbad
      obtain ⟨j, hj1, hj2, hj3⟩ := hbad
      simp only [streamOffsetsGo]
      rw [hmodid]
      rcases Nat.lt_or_ge size (cumOffsets pd sc (i + 1)) with hlt | hge
      · rw [if_pos hlt]
      · rw [if_neg (by omega)]
        have hji : i ≠ j := by
          intro he
          rw [<- he] at hj3
          omega
        have hrec := (ih (i + 1) (by omega) (by omega)).2 ⟨j, by omega, hj2, hj3⟩
        rw [hrec]

/-- getPacket rejects a Data packet whose size is not a multiple of 4
(BadPacketAlignment) and one with a zero stream count (EmptyData);
otherwise it builds the cumulative stream offsets
`cum 0 = 6 + 2 * streamCount`, `cum (i+1) = cum i + length[i]`,
fails with StreamOverflow exactly when some `cum (i+1)` exceeds the
packet size, and on success records the `streamCount + 1` offsets. -/
theorem getPacket_data_stream_offsets (size : Nat) (pd : Nat -> Nat) (hsz : size ≤ 65536) :
    (size % 4 ≠ 0 -> decodeData size pd = .error .badPacketAlignment) ∧
    (size % 4 = 0 -> getUint16LE pd 4 = 0 -> decodeData size pd = .error .emptyData) ∧
    (size % 4 = 0 -> 0 < getUint16LE pd 4 ->
      ((∃ i, i < getUint16LE pd 4 ∧ size < cumOffsets pd (getUint16LE pd 4) (i + 1)) ->
        decodeData size pd = .error .streamOverflow) ∧
      ((∀ i, i < getUint16LE pd 4 -> cumOffsets pd (getUint16LE pd 4) (i + 1) ≤ size) ->
        decodeData size pd = .ok (getUint16LE pd 4,
          (List.range (getUint16LE pd 4 + 1)).map (cumOffsets pd (getUint16LE pd 4))))) ∧
    (∀ sc offs, decodeData size pd = .ok (sc, offs) ->
      sc = getUint16LE pd 4 ∧ offs.length = sc + 1) := by
  have hand : size &&& 3 = size % 4 := by
    have h := Nat.and_pow_two_sub_one_eq_mod size 2
    norm_num at h
    exact h
  have hsc := getUint16LE_lt pd 4
  refine ⟨?_, ?_, ?_, ?_⟩
  · intro hmod
    unfold decodeData
    rw [if_pos (by simp [hand, hmod])]
  · intro hmod hzero
    unfold decodeData
    rw [if_neg (by simp [hand, hmod])]
    simp only [hzero, if_pos]
  · intro hmod hpos
    have hinit : cumOffsets pd (getUint16LE pd 4) 0 ≤ 131076 := by
      show 6 + 2 * getUint16LE pd 4 ≤ 131076
      omega
    have hspec := streamOffsetsGo_spec pd size (getUint16LE pd 4) hsz
      (getUint16LE pd 4) 0 (by omega) hinit
    constructor
    · intro hbad
      obtain ⟨i, hi1, hi2⟩ := hbad
      unfold decodeData
      rw [if_neg (by simp [hand, hmod])]
      simp only []
      rw [if_neg (by omega)]
      have := hspec.2 ⟨i, by omega, hi1, hi2⟩
      rw [show (6 + 2 * getUint16LE pd 4) = cumOffsets pd (getUint16LE pd 4) 0 from rfl]
      rw [this]
    · intro hok
      unfold decodeData
      rw [if_neg (by simp [hand, hmod])]
      simp only []
      rw [if_neg (by omega)]
      have hgo := hspec.1 (fun j hj1 hj2 => hok j hj2)
      rw [show (6 + 2 * getUint16LE pd 4) = cumOffsets pd (getUint16LE pd 4) 0 from rfl]
      rw [hgo]
      simp only []
      congr 2
      apply List.map_congr_left
      intro a ha
      rw [Nat.zero_add]
  · intro sc offs h
    unfold decodeData at h
    rcases hal : (size &&& 3 != 0) with _ | _
    swap
    · rw [hal] at h; simp at h
    rw [hal] at h
    simp only [Bool.false_eq_true, if_false] at h
    rcases hz : getUint16LE pd 4 with _ | m
    · rw [hz] at h; simp at h
    rw [hz] at h
    simp only [Nat.succ_ne_zero, if_neg, if_false] at h
    rcases hgo : streamOffsetsGo pd size (m + 1) 0 (6 + 2 * (m + 1)) with e | offs0
    · rw [hgo] at h; simp at h
    rw [hgo] at h
    simp only [Except.ok.injEq, Prod.mk.injEq] at h
    obtain ⟨hsc2, hoffs⟩ := h
    have hlen := streamOffsetsGo_length pd size (m + 1) 0 (6 + 2 * (m + 1)) offs0 hgo
    constructor
    · omega
    · rw [<- hoffs, hlen]
      omega


/-! consumeBits of the compressed-vector reader. -/

/-- Sentinel marking a fully consumed byte stream:
`AllBitsRead = ~uint32_t(0)`. -/
def AllBitsRead : Nat := 0xFFFFFFFF

/-- Bit-unpacking progress for one component (`BitUnpackState`). -/
structure BitUnpackState where
  itemsWritten : Nat
  bitsConsumed : Nat
  deriving Repr, DecidableEq

/-- Byte-stream description for one batch (`BitUnpackDesc`). -/
structure BitUnpackDesc where
  maxItems : Nat
  byteStreamOffset : Nat
  bitsAvailable : Nat
  deriving Repr, DecidableEq

/-- Component type enumeration (`Component::Type`): None, Float,
Double, Integer, ScaledInteger. -/
inductive CompType where
  | none
  | float
  | double
  | integer
  | scaledInteger
  deriving Repr, DecidableEq

/-- Component description.  Only the fields that drive the state
evolution of `consumeBits` are retained: the type tag and the integer
`bitWidth` (a `uint8_t`); the numeric min/max/scale/offset fields only
shape the written float values, which no claim observes. -/
structure Component where
  type : CompType
  bitWidth : Nat
  deriving Repr, DecidableEq

/-- Item loop common to the four typed branches of `consumeBits`: for
each item while `item < maxItems`, exhaustion is checked with
`bitsAvailable < bitsConsumedNext` before decoding, and on exhaustion
`bitsConsumed` becomes `AllBitsRead`; otherwise
`bitsConsumed = bitsConsumedNext; bitsConsumedNext += w` with the
`uint32_t` sum reduced.  `remaining = maxItems - item` drives the
recursion. -/
def consumeBitsGo (bitsAvailable w : Nat) :
    Nat -> Nat -> Nat -> Nat -> BitUnpackState
  | 0, item, bitsConsumed, _ => ⟨item, bitsConsumed⟩
  | remaining + 1, item, _bitsConsumed, bitsConsumedNext =>
    if bitsAvailable < bitsConsumedNext then ⟨item, AllBitsRead⟩
    else consumeBitsGo bitsAvailable w remaining (item + 1) bitsConsumedNext
      ((bitsConsumedNext + w) % 2 ^ 32)

/-- consumeBits of the compressed-vector reader (state evolution): the
four handled component types run the item loop with the width of the
type (`bitWidth` for Integer and ScaledInteger, 32 for Float, 64 for
Double); a component of type None matches no branch and the state is
returned unchanged. -/
def consumeBits (unpackState : BitUnpackState) (unpackDesc : BitUnpackDesc)
    (comp : Component) : BitUnpackState :=
  let loop := fun (w : Nat) =>
    consumeBitsGo unpackDesc.bitsAvailable w
      (unpackDesc.maxItems - unpackState.itemsWritten)
      unpackState.itemsWritten unpackState.bitsConsumed
      ((unpackState.bitsConsumed + w) % 2 ^ 32)
  match comp.type with
  | .integer => loop comp.bitWidth
  | .scaledInteger => loop comp.bitWidth
  | .float => loop 32
  | .double => loop 64
  | .none => unpackState

theorem consumeBitsGo_item_le (bitsAvailable w : Nat) :
    ∀ remaining item bitsConsumed bitsConsumedNext,
      item ≤ (consumeBitsGo bitsAvailable w remaining item bitsConsumed
        bitsConsumedNext).itemsWritten := by
  intro remaining
  induction remaining with
  | zero => intro item bc bcn; exact Nat.le_refl item
  | succ remaining ih =>
    intro item bc bcn
    simp only [consumeBitsGo]
    rcases Nat.lt_or_ge bitsAvailable bcn with hlt | hge
    · rw [if_pos hlt]
    · rw [if_neg (by omega)]
      exact Nat.le_trans (Nat.le_succ item) (ih (item + 1) bcn ((bcn + w) % 2 ^ 32))

theorem consumeBitsGo_progress (bitsAvailable w : Nat) :
    ∀ remaining item bitsConsumed bitsConsumedNext, remaining ≠ 0 ->
      item < (consumeBitsGo bitsAvailable w remaining item bitsConsumed
        bitsConsumedNext).itemsWritten ∨
      (consumeBitsGo bitsAvailable w remaining item bitsConsumed
        bitsConsumedNext).bitsConsumed = AllBitsRead := by
  intro remaining item bc bcn hr
  obtain ⟨r, rfl⟩ := Nat.exists_eq_succ_of_ne_zero hr
  simp only [consumeBitsGo]
  rcases Nat.lt_or_ge bitsAvailable bcn with hlt | hge
  · rw [if_pos hlt]
    exact Or.inr rfl
  · rw [if_neg (by omega)]
    left
    exact Nat.lt_of_lt_of_le (Nat.lt_succ_self item)
      (consumeBitsGo_item_le bitsAvailable w r (item + 1) bcn ((bcn + w) % 2 ^ 32))

/-- consumeBits progress invariant: called on a component of one of the
four decoded types with `itemsWritten < maxItems`, it returns either a
strictly larger `itemsWritten` or the `AllBitsRead` sentinel, so the
no-progress assertion of the caller never fires. -/
theorem consumeBits_progress (unpackState : BitUnpackState) (unpackDesc : BitUnpackDesc)
    (comp : Component)
    (hitems : unpackState.itemsWritten < unpackDesc.maxItems)
    (htype : comp.type = .integer ∨ comp.type = .scaledInteger ∨
      comp.type = .float ∨ comp.type = .double) :
    unpackState.itemsWritten <
        (consumeBits unpackState unpackDesc comp).itemsWritten ∨
      (consumeBits unpackState unpackDesc comp).bitsConsumed = AllBitsRead := by
  have hrem : unpackDesc.maxItems - unpackState.itemsWritten ≠ 0 := by omega
  rcases htype with ht | ht | ht | ht <;>
    · unfold consumeBits
      rw [ht]
      exact consumeBitsGo_progress _ _ _ _ _ _ hrem

/-- Witness: an Integer component of width 8 with room for two items
and one byte of stream makes one item of progress. -/
theorem consumeBits_progress_witness :
    (0 : Nat) < 2 ∧
    ((⟨CompType.integer, 8⟩ : Component).type = .integer ∨
      (⟨CompType.integer, 8⟩ : Component).type = .scaledInteger ∨
      (⟨CompType.integer, 8⟩ : Component).type = .float ∨
      (⟨CompType.integer, 8⟩ : Component).type = .double) ∧
    ((0 : Nat) < (consumeBits ⟨0, 0⟩ ⟨2, 8, 8⟩ ⟨CompType.integer, 8⟩).itemsWritten ∨
      (consumeBits ⟨0, 0⟩ ⟨2, 8, 8⟩ ⟨CompType.integer, 8⟩).bitsConsumed = AllBitsRead) :=
  ⟨by decide, by decide,
    consumeBits_progress ⟨0, 0⟩ ⟨2, 8, 8⟩ ⟨CompType.integer, 8⟩ (by decide) (by decide)⟩


/-! readPointsIteration and readPoints of the compressed-vector
reader. -/

/-- Per-component read state (`ComponentReadState`). -/
structure ComponentReadState where
  packetOffset : Nat
  unpackState : BitUnpackState
  unpackDesc : BitUnpackDesc
  deriving Repr, DecidableEq

/-- Fixed environment of one `readE57Points` call: page geometry, file,
page-read success predicate, the components of the selected point set,
the per-descriptor stream indices (`writeDesc[i].stream`), and the
physical end of the compressed-vector section. -/
structure ReadCtx where
  g : PageGeom
  f : Nat -> Nat
  pageOk : Nat -> Bool
  components : List Component
  streams : List Nat
  sectionPhysicalEnd : Nat

/-- One inner-loop step of `readPointsIteration` for the component
with stream index `stream`: skip a state that has its items; otherwise
fetch the next Data packet when the previous one is exhausted
(checking the section end, the fetch result, and the stream count),
then run `consumeBits` and fold the new item count into `done`
(`done = done && itemsWritten < maxItems` in the source).  The
component is `pts.components[stream]`; the out-of-range default of the
lookup is never taken by the callers, which check
`stream < byteStreamsCount`. -/
def iterStep (ctx : ReadCtx) (ps : PacketState) (stream : Nat)
    (rs : ComponentReadState) (done : Bool) :
    Option (Except Err (ComponentReadState × PacketState × Bool)) :=
  if rs.unpackState.itemsWritten < rs.unpackDesc.maxItems then
    let fetched : Option (Except Err (ComponentReadState × PacketState)) :=
      if rs.unpackState.bitsConsumed = AllBitsRead then
        if ctx.sectionPhysicalEnd ≤ rs.packetOffset then
          some (.error Err.prematureEndOfSection)
        else
          match getPacket ctx.g ctx.f ctx.pageOk ps rs.packetOffset 1 with
          | none => none
          | some (nxt, ps2) =>
            if nxt = 0 then some (.error Err.packetFetchFailed)
            else if ps2.byteStreamsCount ≤ stream then some (.error Err.streamMissing)
            else
              let bso := ps2.byteStreamOffsets.getD stream 0
              let bsoNext := ps2.byteStreamOffsets.getD (stream + 1) 0
              some (.ok ((⟨nxt, ⟨rs.unpackState.itemsWritten, 0⟩,
                ⟨rs.unpackDesc.maxItems, bso, 8 * (bsoNext - bso)⟩⟩ :
                  ComponentReadState), ps2))
      else some (.ok (rs, ps))
    match fetched with
    | none => none
    | some (.error e) => some (.error e)
    | some (.ok (rs2, ps2)) =>
      let comp := ctx.components.getD stream ⟨CompType.none, 0⟩
      let st2 := consumeBits rs2.unpackState rs2.unpackDesc comp
      let rs3 : ComponentReadState := ⟨rs2.packetOffset, st2, rs2.unpackDesc⟩
      some (.ok (rs3, ps2, done && decide (st2.itemsWritten < rs3.unpackDesc.maxItems)))
  else some (.ok (rs, ps, done))

/-- Inner for-loop of `readPointsIteration` over the read states,
threading the packet cache and the `done` flag.  The stream list and
the state list run in lockstep (a length mismatch, impossible from
`readPoints`, reports an exhausted bound). -/
def iterRound (ctx : ReadCtx) :
    List Nat -> List ComponentReadState -> PacketState -> Bool ->
    Option (Except Err (List ComponentReadState × PacketState × Bool))
  | [], [], ps, done => some (.ok ([], ps, done))
  | stream :: streams, rs :: states, ps, done =>
    match iterStep ctx ps stream rs done with
    | none => none
    | some (.error e) => some (.error e)
    | some (.ok (rs2, ps2, done2)) =>
      match iterRound ctx streams states ps2 done2 with
      | none => none
      | some (.error e) => some (.error e)
      | some (.ok (states2, ps3, done3)) => some (.ok (rs2 :: states2, ps3, done3))
  | _, _, _, _ => none

/-- do-while loop of `readPointsIteration`: run rounds until a round
leaves `done` true.  The first argument bounds the number of rounds;
a round is repeated only when some state reached its item count during
it, so `#states + 1` rounds always suffice. -/
def iterRounds (ctx : ReadCtx) :
    Nat -> List Nat -> List ComponentReadState -> PacketState ->
    Option (Except Err (List ComponentReadState × PacketState))
  | 0, _, _, _ => none
  | fuel + 1, streams, states, ps =>
    match iterRound ctx streams states ps true with
    | none => none
    | some (.error e) => some (.error e)
    | some (.ok (states2, ps2, done)) =>
      if done then some (.ok (states2, ps2))
      else iterRounds ctx fuel streams states2 ps2

/-- readPointsIteration: reset `itemsWritten` to 0 and `maxItems` to
the batch size on every state, then run rounds until done. -/
def readPointsIteration (ctx : ReadCtx) (states : List ComponentReadState)
    (pointsToDo : Nat) (ps : PacketState) :
    Option (Except Err (List ComponentReadState × PacketState)) :=
  let states2 := states.map fun rs =>
    (⟨rs.packetOffset, ⟨0, rs.unpackState.bitsConsumed⟩,
      ⟨pointsToDo, rs.unpackDesc.byteStreamOffset, rs.unpackDesc.bitsAvailable⟩⟩ :
        ComponentReadState)
  iterRounds ctx (states.length + 1) ctx.streams states2 ps

/-- Outer while-loop of `readPoints`: while points remain, run one
batch of `min(remaining, pointCapacity)` points and report it to the
consume callback; the returned list holds the reported batch sizes in
call order.  The bound is the remaining record count (every batch
advances at least one point when the capacity is nonzero; a zero
capacity never terminates in the source and exhausts the bound
here). -/
def readPointsGo (ctx : ReadCtx) (pointCapacity : Nat) :
    Nat -> List ComponentReadState -> PacketState -> Nat ->
    Option (Except Err (List Nat))
  | fuel, states, ps, remaining =>
    if remaining = 0 then some (.ok [])
    else
      match fuel with
      | 0 => none
      | fuel + 1 =>
        let pointsToDo := min remaining pointCapacity
        match readPointsIteration ctx states pointsToDo ps with
        | none => none
        | some (.error e) => some (.error e)
        | some (.ok (states2, ps2)) =>
          match readPointsGo ctx pointCapacity fuel states2 ps2 (remaining - pointsToDo) with
          | none => none
          | some (.error e) => some (.error e)
          | some (.ok sizes) => some (.ok (pointsToDo :: sizes))

/-- readPoints: one read state per write descriptor, initialized with
`packetOffset = dataPhysicalOffset`, `bitsConsumed = AllBitsRead`
(forcing the first packet fetch) and `maxItems = 5`, processed by the
streaming outer loop against a fresh packet cache. -/
def readPoints (ctx : ReadCtx) (dataPhysicalOffset recordCount pointCapacity : Nat) :
    Option (Except Err (List Nat)) :=
  let states := ctx.streams.map fun _ =>
    (⟨dataPhysicalOffset, ⟨0, AllBitsRead⟩, ⟨5, 0, 0⟩⟩ : ComponentReadState)
  readPointsGo ctx pointCapacity recordCount states PacketState.init recordCount


theorem readPointsGo_spec (ctx : ReadCtx) (cap : Nat) (hcap : 0 < cap) :
    ∀ fuel remaining states ps sizes,
      readPointsGo ctx cap fuel states ps remaining = some (.ok sizes) ->
      sizes.length = (remaining + cap - 1) / cap ∧
      sizes.sum = remaining ∧
      (∀ x ∈ sizes, 0 < x) ∧
      (∀ k, k < sizes.length -> sizes.getD k 0 = min cap (remaining - k * cap)) := by
  intro fuel
  induction fuel with
  | zero =>
    intro remaining states ps sizes h
    rw [readPointsGo.eq_def] at h
    simp only [] at h
    rcases Nat.eq_zero_or_pos remaining with hr | hr
    · rw [if_pos hr] at h
      simp only [Option.some.injEq, Except.ok.injEq] at h
      subst h
      rw [hr]
      refine ⟨?_, rfl, by intro x hx; simp at hx, by intro k hk; simp at hk⟩
      rw [List.length_nil, Nat.zero_add]
      exact (Nat.div_eq_of_lt (by omega)).symm
    · rw [if_neg (by omega)] at h
      simp at h
  | succ fuel ih =>
    intro remaining states ps sizes h
    rw [readPointsGo.eq_def] at h
    simp only [] at h
    rcases Nat.eq_zero_or_pos remaining with hr | hr
    · rw [if_pos hr] at h
      simp only [Option.some.injEq, Except.ok.injEq] at h
      subst h
      rw [hr]
      refine ⟨?_, rfl, by intro x hx; simp at hx, by intro k hk; simp at hk⟩
      rw [List.length_nil, Nat.zero_add]
      exact (Nat.div_eq_of_lt (by omega)).symm
    · rw [if_neg (by omega)] at h
      rcases hit : readPointsIteration ctx states (min remaining cap) ps with _ | res
      · rw [hit] at h; simp at h
      rcases res with e | ⟨states2, ps2⟩
      · rw [hit] at h; simp at h
      rw [hit] at h
      simp only [] at h
      rcases hrec : readPointsGo ctx cap fuel states2 ps2 (remaining - min remaining cap)
        with _ | res2
      · rw [hrec] at h; simp at h
      rcases res2 with e | sizes0
      · rw [hrec] at h; simp at h
      rw [hrec] at h
      simp only [Option.some.injEq, Except.ok.injEq] at h
      obtain ⟨hlen0, hsum0, hmem0, hget0⟩ := ih _ _ _ _ hrec
      subst h
      have hptd : 0 < min remaining cap := by omega
      refine ⟨?_, ?_, ?_, ?_⟩
      · rw [List.length_cons, hlen0]
        rcases le_or_lt remaining cap with hle | hlt
        · have hm : min remaining cap = remaining := by omega
          rw [hm, Nat.sub_self, Nat.zero_add]
          rw [Nat.div_eq_of_lt (by omega)]
          have h1 : (remaining + cap - 1) / cap = 1 :=
            Nat.div_eq_of_lt_le (by omega) (by omega)
          omega
        · have hm : min remaining cap = cap := by omega
          rw [hm]
          have heq : remaining + cap - 1 = (remaining - cap + cap - 1) + cap := by omega
          rw [heq, Nat.add_div_right _ hcap]
      · rw [List.sum_cons, hsum0]
        omega
      · intro x hx
        rcases List.mem_cons.mp hx with hx | hx
        · omega
        · exact hmem0 x hx
      · intro k hk
        cases k with
        | zero =>
          rw [List.getD_cons_zero, Nat.zero_mul, Nat.sub_zero, Nat.min_comm]
        | succ k =>
          rw [List.getD_cons_succ]
          rw [List.length_cons] at hk
          have hk0 : k < sizes0.length := by omega
          rw [hget0 k hk0]
          rcases le_or_lt remaining cap with hle | hlt
          · have hm : min remaining cap = remaining := by omega
            have hlen00 : sizes0.length = 0 := by
              rw [hm, Nat.sub_self, Nat.zero_add] at hlen0
              rw [hlen0]
              exact Nat.div_eq_of_lt (by omega)
            exfalso
            omega
          · have hm : min remaining cap = cap := by omega
            rw [hm]
            have hmul : (k + 1) * cap = k * cap + cap := by ring
            congr 1
            omega

/-- readPoints reports exactly ceil(recordCount / pointCapacity)
batches to the consume callback, in order, the k-th covering the next
`min(pointCapacity, recordCount - k * pointCapacity)` points; every
batch is non-empty and the batch sizes sum to `recordCount`. -/
theorem readPoints_batches_spec (ctx : ReadCtx)
    (dataPhysicalOffset recordCount pointCapacity : Nat)
    (hcap : 0 < pointCapacity) (sizes : List Nat)
    (h : readPoints ctx dataPhysicalOffset recordCount pointCapacity = some (.ok sizes)) :
    sizes.length = (recordCount + pointCapacity - 1) / pointCapacity ∧
    sizes.sum = recordCount ∧
    (∀ x ∈ sizes, 0 < x) ∧
    (∀ k, k < sizes.length ->
      sizes.getD k 0 = min pointCapacity (recordCount - k * pointCapacity)) :=
  readPointsGo_spec ctx pointCapacity hcap recordCount recordCount _ _ sizes h


/-- Address conversions round-trip: mapping a physical offset whose
in-page part lies in the payload to its logical address (as
`calculateSectionLogicalEnd` does) and back to physical (as
`calculateSectionPhysicalEnd` does) is the identity, for every
geometry with a power-of-two page size, `mask = pageSize - 1` and
`logicalPageSize = pageSize - 4`. -/
theorem physical_logical_roundtrip {g : PageGeom}
    (hsz : g.size = 2 ^ g.shift) (hlog : g.logicalSize = g.size - 4)
    (hmask : g.mask = g.size - 1) {p : Nat}
    (hin : p &&& g.mask < g.logicalSize) :
    physicalOfLogical g (logicalOfPhysical g p) = p ∧
      calculateSectionPhysicalEnd g p 0 = p := by
  have h := physicalOfLogical_logicalOfPhysical ⟨hsz, hlog, hmask⟩ hin
  refine ⟨h, ?_⟩
  rw [calculateSectionPhysicalEnd_eq, Nat.add_zero, h]

/-- Witness for the round trip on a 32-byte-page geometry at physical
offset 70 (page 2, in-page 6). -/
theorem physical_logical_roundtrip_witness :
    physicalOfLogical (pageGeomOf 32) (logicalOfPhysical (pageGeomOf 32) 70) = 70 ∧
      calculateSectionPhysicalEnd (pageGeomOf 32) 70 0 = 70 :=
  physical_logical_roundtrip (by decide) (by decide) (by decide) (by decide)

/-! Concrete single-page files used to evaluate the packet and
coordinator layers on real data. -/

/-- Page geometry of a 32-byte page, as `parseHeader` derives it. -/
def geom32 : PageGeom := pageGeomOf 32

/-- Demonstration file A: one 32-byte page whose payload holds a Data
packet at physical offset 4 (size 12, one byte stream of one byte),
the payload zero-padded, with the CRC-32C of the payload stored in the
last four bytes in big-endian order. -/
def fileA : Nat -> Nat := fun i =>
  [0, 0, 0, 0, 1, 0, 11, 0, 1, 0, 1, 0, 171, 0, 0, 0,
   0, 0, 0, 0, 0, 0, 0, 0, 0, 0, 0, 0, 125, 133, 0, 189].getD i 0

/-- Demonstration file B: like file A but the Data packet has size 16
with one byte stream of five bytes. -/
def fileB : Nat -> Nat := fun i =>
  [0, 0, 0, 0, 1, 0, 15, 0, 1, 0, 5, 0, 10, 20, 30, 40,
   50, 0, 0, 0, 0, 0, 0, 0, 0, 0, 0, 0, 109, 69, 193, 99].getD i 0

/-- Demonstration file with a corrupted first payload byte, so the
stored CRC of file A no longer matches. -/
def fileBad : Nat -> Nat := fun i => if i = 0 then 1 else fileA i

/-- Read context over file A: one Integer component of bit width 8 on
stream 0, section end far past the packet. -/
def ctxA : ReadCtx :=
  { g := geom32, f := fileA, pageOk := fun _ => true
    components := [⟨CompType.integer, 8⟩], streams := [0]
    sectionPhysicalEnd := 100 }

/-- Read context over file B. -/
def ctxB : ReadCtx :=
  { g := geom32, f := fileB, pageOk := fun _ => true
    components := [⟨CompType.integer, 8⟩], streams := [0]
    sectionPhysicalEnd := 100 }

/-- Read state as `readPoints` initializes it for data at offset 4. -/
def stateA : ComponentReadState := ⟨4, ⟨0, AllBitsRead⟩, ⟨5, 0, 0⟩⟩

/-- The batch loop accepts an incomplete batch: with one Integer
component of width 8, a batch size of 2, and a Data packet whose
single byte stream holds bits for only one item,
`readPointsIteration` returns success with `itemsWritten = 1`.  The
condition `done = done && itemsWritten < maxItems` keeps `done` true
for a stream that stalled mid-batch instead of repeating the loop to
fetch the next packet, contradicting the source's own comment
("Continue until we have enough items for all components"), the
specification pseudocode (`done = done && itemsWritten >= maxItems`)
and the batch postcondition `itemsWritten == B`. -/
theorem readPointsIteration_accepts_incomplete_batch :
    (readPointsIteration ctxA [stateA] 2 PacketState.init).map
        (Except.map fun r => r.1.map fun rs => rs.unpackState.itemsWritten) =
      some (.ok [1]) := by
  rfl


theorem iterStep_fetch_at_zero (ctx : ReadCtx) (stream : Nat)
    (rs : ComponentReadState) (done : Bool)
    (hitems : rs.unpackState.itemsWritten < rs.unpackDesc.maxItems)
    (hbits : rs.unpackState.bitsConsumed = AllBitsRead)
    (hoff : rs.packetOffset = 0)
    (hsec : 0 < ctx.sectionPhysicalEnd) :
    iterStep ctx PacketState.init stream rs done =
      some (.error .packetFetchFailed) := by
  have hns : ¬ (ctx.sectionPhysicalEnd ≤ rs.packetOffset) := by omega
  unfold iterStep
  rw [if_pos hitems]
  simp only [hbits, if_pos, if_neg hns]
  have hgp : getPacket ctx.g ctx.f ctx.pageOk PacketState.init rs.packetOffset 1 =
      some (0, PacketState.init) := by
    unfold getPacket
    rw [if_pos (by rw [hoff]; rfl)]
    rfl
  rw [hgp]
  simp only [if_pos]

/-- getPacket signals failure by returning physical offset 0, which is
also the initial cached `currentOffset`: a fetch at offset 0 against a
cache whose offsets are 0 returns the stale cached `nextOffset` 0
without reading the file at all (the statement holds for every file
and page predicate), any failing fetch resets both cached offsets to 0
and returns 0, and the coordinator treats a returned offset 0 as
fatal — so a Data packet genuinely located at physical offset 0 can
never be fetched. -/
theorem getPacket_offset_zero_fatal :
    (∀ (g : PageGeom) (f : Nat -> Nat) (pageOk : Nat -> Bool) (ps : PacketState)
        (ty : Nat), ps.currentOffset = 0 -> ps.nextOffset = 0 ->
      getPacket g f pageOk ps 0 ty = some (0, ps)) ∧
    (∀ (g : PageGeom) (f : Nat -> Nat) (pageOk : Nat -> Bool) (ps ps2 : PacketState)
        (off ty : Nat) (e : Err), ps.currentOffset ≠ off ->
      getPacketFetch g f pageOk ps off ty = some (ps2, .error e) ->
      getPacket g f pageOk ps off ty =
        some (0, { ps2 with currentOffset := 0, nextOffset := 0 })) ∧
    (∀ (ctx : ReadCtx) (rs : ComponentReadState) (states2 : List ComponentReadState)
        (stream : Nat) (streams2 : List Nat) (ptd : Nat),
      ctx.streams = stream :: streams2 ->
      0 < ctx.sectionPhysicalEnd -> 0 < ptd ->
      rs.packetOffset = 0 -> rs.unpackState.bitsConsumed = AllBitsRead ->
      readPointsIteration ctx (rs :: states2) ptd PacketState.init =
        some (.error .packetFetchFailed)) := by
  refine ⟨?_, ?_, ?_⟩
  · intro g f pageOk ps ty hcur hnext
    unfold getPacket
    rw [if_pos hcur, hnext]
  · intro g f pageOk ps ps2 off ty e hne hfetch
    unfold getPacket
    rw [if_neg hne, hfetch]
  · intro ctx rs states2 stream streams2 ptd hstreams hsec hptd hoff hbits
    unfold readPointsIteration
    rw [hstreams]
    simp only [List.map_cons, List.length_cons]
    rw [iterRounds]
    have hstep := iterStep_fetch_at_zero ctx stream
      (⟨rs.packetOffset, ⟨0, rs.unpackState.bitsConsumed⟩,
        ⟨ptd, rs.unpackDesc.byteStreamOffset, rs.unpackDesc.bitsAvailable⟩⟩ :
          ComponentReadState) true (by simpa using hptd) (by simpa using hbits)
      (by simpa using hoff) hsec
    rw [iterRound, hstep]

/-- Witness: on the concrete 32-byte-page context, a fresh-cache fetch
at offset 0 returns the stale 0 and the first coordinator round on a
state pointing at offset 0 fails. -/
theorem getPacket_offset_zero_fatal_witness :
    getPacket geom32 fileA (fun _ => true) PacketState.init 0 1 =
        some (0, PacketState.init) ∧
      readPointsIteration ctxA [(⟨0, ⟨0, AllBitsRead⟩, ⟨5, 0, 0⟩⟩ :
          ComponentReadState)] 2 PacketState.init =
        some (.error .packetFetchFailed) :=
  ⟨getPacket_offset_zero_fatal.1 geom32 fileA (fun _ => true) PacketState.init 1 rfl rfl,
    getPacket_offset_zero_fatal.2.2 ctxA ⟨0, ⟨0, AllBitsRead⟩, ⟨5, 0, 0⟩⟩ [] 0 [] 2
      rfl (by decide) (by decide) rfl rfl⟩

/-! CRC-table initialization state of `checkPage`. -/

/-- Static initialization state of the CRC table inside `checkPage`
(`static bool first = true; static uint32_t table[256];`); `writes`
counts executions of the table-filling loop. -/
structure CrcTableState where
  first : Bool
  writes : Nat
  deriving Repr, DecidableEq

/-- Effect of one `checkPage` call on the static table state: the fill
loop runs exactly when `first` is true, and no statement in the source
ever assigns `first`, so it is returned unchanged. -/
def checkPageTableEffect (s : CrcTableState) : CrcTableState :=
  if s.first then { first := s.first, writes := s.writes + 1 } else s

/-- Static table state after `n` `checkPage` calls of one process. -/
def crcTableStateAfter (n : Nat) : CrcTableState :=
  checkPageTableEffect^[n] ⟨true, 0⟩

/-- The CRC table is rebuilt by every `checkPage` call: after `n`
calls the fill loop has run `n` times and the `first` guard is still
true, not once-and-read-only as specified — the source never clears
`first`. -/
theorem crcTable_recomputed_every_call :
    (∀ n, (crcTableStateAfter n).writes = n ∧ (crcTableStateAfter n).first = true) ∧
      (crcTableStateAfter 2).writes = 2 := by
  constructor
  · intro n
    induction n with
    | zero => exact ⟨rfl, rfl⟩
    | succ n ih =>
      have hgen : ∀ s : CrcTableState, s.first = true ->
          checkPageTableEffect s = { first := s.first, writes := s.writes + 1 } := by
        intro s hs
        unfold checkPageTableEffect
        rw [if_pos hs]
      unfold crcTableStateAfter at ih ⊢
      rw [Function.iterate_succ_apply', hgen _ ih.2]
      exact ⟨by rw [ih.1], ih.2⟩
  · rfl


/-- Packet bytes of the Data packet at offset 4 of file A, as the
packet buffer sees them. -/
def pdA : Nat -> Nat := fun i => fileA (4 + i)

/-- Witness: corrupting one payload byte makes `readE57Bytes` fail
with `crcMismatch` on the concrete 32-byte page. -/
theorem checkPage_crc32c_spec_witness :
    readE57Bytes geom32 fileBad (fun _ => true) 4 4 =
      some (.error .crcMismatch) :=
  (checkPage_crc32c_spec geom32 fileBad fileBad (fun _ => true)).2.1 4 4
    (by decide) (by decide) (by decide) (by decide)

/-- Witness: reading the full 28-byte payload of page 0 of file A in
one call advances the physical offset by the whole 32-byte page. -/
theorem readE57Bytes_page_advance_witness :
    (32 : Nat) = 0 + geom32.size :=
  (@readE57Bytes_page_advance geom32 fileA (fun _ => true)
      ⟨by decide, by decide, by decide⟩ (by decide)).2
    0 [28] 32 (by decide) (by decide) (by rfl)

/-- Witness: the Data packet of file A (size 12, one stream of one
byte) decodes to stream count 1 with the two offsets 8 and 9. -/
theorem getPacket_data_stream_offsets_witness :
    (1 : Nat) = getUint16LE pdA 4 ∧ ([8, 9] : List Nat).length = 1 + 1 :=
  (getPacket_data_stream_offsets 12 pdA (by decide)).2.2.2 1 [8, 9] (by rfl)

/-- Witness: a 48-byte file of zero bytes is rejected with
`badSignature`. -/
theorem parseHeader_checks_and_invariant_witness :
    parseHeader 48 (fun _ => 0) true = .error .badSignature :=
  (parseHeader_checks_and_invariant 48 (fun _ => 0) true (fun _ => true) true).1
    (by decide) rfl (by decide)

/-- Witness: reading 5 records with capacity 2 over file B reports the
batches 2, 2, 1, matching the closed-form batch description. -/
theorem readPoints_batches_spec_witness :
    ([2, 2, 1] : List Nat).length = (5 + 2 - 1) / 2 ∧
      ([2, 2, 1] : List Nat).sum = 5 ∧
      (∀ x ∈ ([2, 2, 1] : List Nat), 0 < x) ∧
      (∀ k, k < ([2, 2, 1] : List Nat).length ->
        ([2, 2, 1] : List Nat).getD k 0 = min 2 (5 - k * 2)) :=
  readPoints_batches_spec ctxB 4 5 2 (by decide) [2, 2, 1] (by rfl)


end E57
